import Mathlib

/-!
Verification of the session state machine and patch-iteration engine of the
mailbox-to-commit applier implemented in builtin/am.c (the early builtin
rewrite of git-am).

The development shallowly embeds the program:

* byte strings are `List Char`;
* the session directory is a record of optional file contents (`FS`);
* the three external collaborators (mail splitter, mail parser, patch
  applier) are oracles supplied through `Env` and `MailInfo`, exactly as the
  spec declares them out of scope;
* fallible C functions return `Option` or small result inductives;
* `die`/`exit` outcomes are constructors of `RunResult`;
* the per-patch loop `am_run` is total via an explicit iteration count that
  equals the number of remaining patches.

Functions of the repository that are not part of builtin/am.c
(`sq_quote_buf`/`sq_dequote` from quote.c, `stripspace`) are modelled from the
spec and marked as such in their doc comments.
-/

set_option maxRecDepth 4000

namespace GitAm

/-- The NUL byte.  C strings end at it; `sq_dequote` treats it as end of input. -/
def nulChar : Char := Char.ofNat 0

/-- The single-quote character. -/
def sq : Char := '\''

/-- The backslash character. -/
def bs : Char := '\\'

/-- The newline character. -/
def nl : Char := '\n'

/-- The carriage-return character. -/
def cr : Char := '\r'

/-- The tab character. -/
def tab : Char := '\t'

/-- The space character. -/
def spaceChar : Char := ' '

/-- skip_prefix from git-compat-util.h: if `p` is an initial run of `s`,
return the remainder of `s`, else fail. -/
def dropPref : List Char → List Char → Option (List Char)
  | [], s => some s
  | _ :: _, [] => none
  | p :: ps, c :: cs => if p = c then dropPref ps cs else none

/-! ## Authorship script codec (builtin/am.c lines 173-286)

`sq_quote_buf` and `sq_dequote` live in quote.c, which is not under src/;
they are modelled from the spec (§4.B): POSIX single-quoting where every
embedded quote becomes quote-backslash-quote-quote and everything else is
literal, with a strict parser that accepts nothing but that exact form. -/

/-- Modelled from the spec: the escaping of one character performed by
`sq_quote_buf` (quote.c, not under src/) — an embedded single quote becomes
the four characters quote, backslash, quote, quote; every other byte is
copied literally. -/
def sq_esc (c : Char) : List Char := if c = sq then [sq, bs, sq, sq] else [c]

/-- Modelled from the spec: `sq_quote_buf` (quote.c, not under src/) wraps the
escaped value in single quotes. -/
def sq_quote (s : List Char) : List Char := sq :: (s.map sq_esc).flatten ++ [sq]

/-- Modelled from the spec: the body of the strict single-quote parser
`sq_dequote` (quote.c, not under src/), positioned just after an opening
quote.  Inside the quotes any byte but NUL and quote is literal; at a quote
the input must either end or continue with backslash-quote-quote resuming the
quoted part; anything else is a parse error. -/
def sq_body : List Char → Option (List Char)
  | [] => none
  | c :: rest =>
    if c = sq then
      match rest with
      | b :: q1 :: q2 :: r2 =>
        if b = bs ∧ q1 = sq ∧ q2 = sq then (sq_body r2).map (fun v => sq :: v) else none
      | [] => some []
      | _ => none
    else if c = nulChar then none
    else (sq_body rest).map (fun v => c :: v)

/-- Modelled from the spec: `sq_dequote` (quote.c, not under src/) — the whole
string must be one single-quoted unit. -/
def sq_dequote : List Char → Option (List Char)
  | [] => none
  | c :: rest => if c = sq then sq_body rest else none

/-- Is the character different from a newline?  (Line-scanning predicate.) -/
def notNl (c : Char) : Bool := !(c == nl)

/-- strbuf_getline on a byte list: at end of input report EOF, otherwise
return everything before the first newline (the terminator is consumed and
stripped) together with the rest of the input.  A final line without a
terminator is returned as-is. -/
def readLine : List Char → Option (List Char × List Char)
  | [] => none
  | c :: cs =>
    some (((c :: cs).takeWhile notNl), (((c :: cs).dropWhile notNl).drop 1))

/-- The key of the first author-script line. -/
def authorNameKey : List Char := "GIT_AUTHOR_NAME".toList

/-- The key of the second author-script line. -/
def authorEmailKey : List Char := "GIT_AUTHOR_EMAIL".toList

/-- The key of the third author-script line. -/
def authorDateKey : List Char := "GIT_AUTHOR_DATE".toList

/-- The equals sign separating KEY from the quoted value. -/
def eqChar : Char := '='

/-- read_shell_var (builtin/am.c lines 173-198): read one line, strip the
expected KEY, strip `=`, and require the remainder of the line to be a
single shell-quoted string.  Returns the dequoted value and the unread rest
of the file. -/
def read_shell_var (file : List Char) (key : List Char) :
    Option (List Char × List Char) :=
  match readLine file with
  | none => none
  | some (line, rest) =>
    match dropPref key line with
    | none => none
    | some s1 =>
      match dropPref [eqChar] s1 with
      | none => none
      | some s2 =>
        match sq_dequote s2 with
        | none => none
        | some v => some (v, rest)

/-- read_author_script (builtin/am.c lines 216-257) on the contents of an
existing author-script file: the three keys must appear in order, each value
shell-quoted, and the file must end right after the third line (the
`fgetc != EOF` check).  `none` is the -1 parse-error result. -/
def read_author_script (file : List Char) :
    Option (List Char × List Char × List Char) :=
  match read_shell_var file authorNameKey with
  | none => none
  | some (n, r1) =>
    match read_shell_var r1 authorEmailKey with
    | none => none
    | some (e, r2) =>
      match read_shell_var r2 authorDateKey with
      | none => none
      | some (d, r3) => if r3 = [] then some (n, e, d) else none

/-- write_author_script (builtin/am.c lines 263-286): the file contents are
the three `KEY=` lines with single-quoted values, each followed by a
newline. -/
def write_author_script (n e d : List Char) : List Char :=
  authorNameKey ++ eqChar :: sq_quote n ++
    nl :: authorEmailKey ++ eqChar :: sq_quote e ++
    nl :: authorDateKey ++ eqChar :: sq_quote d ++ [nl]

/-- A value the author-script codec can round-trip: no newline (the file is
line-oriented) and no NUL (C strings). -/
def goodVal (s : List Char) : Prop := nl ∉ s ∧ nulChar ∉ s

instance (s : List Char) : Decidable (goodVal s) := by
  unfold goodVal; infer_instance

/-! ## Patch format detection (builtin/am.c lines 37-47 and 363-446)

The first patch file is read with `strbuf_getline_crlf`, which treats both
LF and CRLF as line terminators.  We split the whole byte stream into lines
with those semantics once (`splitLinesCRLF`); the loops of
`detect_patch_format` and `is_mail` then walk the resulting line list exactly
as the C loops walk the stream.  Note that `is_mail` rewinds the stream to
offset 0 (`fseek(fp, 0L, SEEK_SET)`), so it always scans from the first line
of the file, not from the read position `detect_patch_format` left behind. -/

/-- strbuf_getline_crlf's terminator stripping: after the `\n` terminator is
dropped, one directly preceding `\r` is dropped too. -/
def stripCR (l : List Char) : List Char :=
  if l.getLast? = some cr then l.dropLast else l

/-- The sequence of lines `strbuf_getline_crlf` yields on a byte stream: split
at each `\n`, strip a `\r` directly before each `\n`, and keep a last
unterminated line as-is (its trailing `\r`, if any, survives because no `\n`
follows it). -/
def splitLinesCRLF (s : List Char) : List (List Char) :=
  if s.getLast? = some nl then ((s.splitOn nl).dropLast).map stripCR
  else
    match s with
    | [] => []
    | _ => ((s.splitOn nl).dropLast).map stripCR ++ [((s.splitOn nl).getLast?).getD []]

/-- Does the character fall in the bracket expression `[!-9;-~]` of the
header-field-name regex — printable ASCII except space and colon? -/
def inClass (c : Char) : Bool :=
  decide (33 ≤ c.toNat ∧ c.toNat ≤ 57) || decide (59 ≤ c.toNat ∧ c.toNat ≤ 126)

/-- Does `regexec` match `^[!-9;-~]+:` against the line?  Because `:` is not
in the bracket expression, the match exists iff the maximal run of class
characters at the start of the line is nonempty and is followed by `:`. -/
def header_match (line : List Char) : Bool :=
  let t := line.takeWhile inClass
  (!t.isEmpty) && ((line.drop t.length).headD nulChar == ':')

/-- The loop of is_mail (builtin/am.c lines 382-395) over the lines of the
file: stop successfully at EOF or at the first blank line; skip indented
folded lines; fail on the first non-indented line that does not match the
header regex. -/
def is_mail_lines : List (List Char) → Bool
  | [] => true
  | line :: rest =>
    if line.isEmpty then true
    else if (line.headD nulChar == tab) || (line.headD nulChar == spaceChar) then
      is_mail_lines rest
    else if header_match line then is_mail_lines rest
    else false

/-- is_mail (builtin/am.c lines 369-401): rewinds to the start of the file and
scans all lines up to the first blank line. -/
def is_mail (s : List Char) : Bool := is_mail_lines (splitLinesCRLF s)

/-- The l1 loop of detect_patch_format (lines 427-430): skip blank lines; the
result is the first non-blank line (empty if the file has none) and the lines
after it. -/
def skip_blanks_lines : List (List Char) → (List Char × List (List Char))
  | [] => ([], [])
  | line :: rest => if line.isEmpty then skip_blanks_lines rest else (line, rest)

/-- The two patch formats the program knows. -/
inductive PatchFormat where
  | unknown
  | mbox
  deriving DecidableEq, Repr

/-- Mbox "From " sentinel. -/
def fromBlankKey : List Char := "From ".toList

/-- "From: " header sentinel. -/
def fromColonKey : List Char := "From: ".toList

/-- detect_patch_format (builtin/am.c lines 408-446) applied to the contents
of the first patch file.  (The earlier returns for an empty path list, for
path `-` and for directories never read the file and yield mbox before this
code runs; no claim depends on them.)  First non-blank line starting with
`From ` or `From: ` means mbox; otherwise a non-empty first non-blank line
together with a successful `is_mail` scan — of the whole file, because
`is_mail` rewinds — means mbox; everything else is unknown. -/
def detect_patch_format (s : List Char) : PatchFormat :=
  let ls := splitLinesCRLF s
  let l1 := (skip_blanks_lines ls).1
  if fromBlankKey.isPrefixOf l1 || fromColonKey.isPrefixOf l1 then PatchFormat.mbox
  else if (!l1.isEmpty) && is_mail s then PatchFormat.mbox
  else PatchFormat.unknown

/-- The region the spec talks about: the lines up to (excluding) the first
blank line. -/
def upToBlank (ls : List (List Char)) : List (List Char) :=
  ls.takeWhile (fun l => !l.isEmpty)

/-- One line passes the spec's header scan if it is indented (folded) or
matches the header-field-name regex. -/
def headerish (l : List Char) : Bool :=
  (l.headD nulChar == tab) || (l.headD nulChar == spaceChar) || header_match l

/-- The spec's acceptance condition on a region of lines: every line up to the
first blank line is indented or matches `^[!-9;-~]+:`. -/
def all_headerish (ls : List (List Char)) : Bool := (upToBlank ls).all headerish

/-! ## Message normalization -/

/-- Whitespace as stripped from line ends by the normalizer. -/
def isTrailWS (c : Char) : Bool := (c == spaceChar) || (c == tab) || (c == cr)

/-- Strip trailing whitespace from one line. -/
def rtrimLine (l : List Char) : List Char := (l.reverse.dropWhile isTrailWS).reverse

/-- Collapse every run of consecutive blank lines to a single blank line. -/
def collapseBlankRuns : List (List Char) → List (List Char)
  | [] => []
  | [] :: [] :: rest2 => collapseBlankRuns ([] :: rest2)
  | [] :: l :: rest => [] :: collapseBlankRuns (l :: rest)
  | [l] => [l]
  | l :: rest => l :: collapseBlankRuns rest

/-- Drop blank lines from both ends of a line list. -/
def dropBlankEnds (ls : List (List Char)) : List (List Char) :=
  ((ls.dropWhile List.isEmpty).reverse.dropWhile List.isEmpty).reverse

/-- Rejoin lines, terminating every line — including the last — with a
newline; an empty text stays empty. -/
def joinLines : List (List Char) → List Char
  | [] => []
  | [l] => l ++ [nl]
  | l :: rest => l ++ nl :: joinLines rest

/-- Modelled from the spec: `stripspace` (not under src/) normalizes the
composed message by stripping trailing whitespace on each line, collapsing
runs of empty lines to a single empty line, and removing leading and trailing
blank lines. -/
def stripspace (s : List Char) : List Char :=
  joinLines (dropBlankEnds (collapseBlankRuns ((s.splitOn nl).map rtrimLine)))

/-! ## The mail parser driver (builtin/am.c lines 598-676)

git-mailinfo is an external collaborator: for one message file it produces
the key-value lines captured into `info`, the body written to the `msg`
scratch file, and the diff written to the `patch` scratch file.  A `MailInfo`
value is that triple of outputs; `parse_mail` below consumes it exactly as
the C code consumes the three files. -/

/-- The outputs of one git-mailinfo run on one message file. -/
structure MailInfo where
  infoLines : List (List Char)
  msgFile : List Char
  patchFile : Option (List Char)
  deriving DecidableEq

/-- The four strbufs parse_mail accumulates while scanning `info`. -/
structure InfoAcc where
  msg : List Char
  author_name : List Char
  author_email : List Char
  author_date : List Char
  deriving DecidableEq, Repr

/-- Prefix recognized for subject lines of `info`. -/
def subjectKey : List Char := "Subject: ".toList

/-- Prefix recognized for author-name lines of `info`. -/
def authorKey : List Char := "Author: ".toList

/-- Prefix recognized for author-email lines of `info`. -/
def emailKey : List Char := "Email: ".toList

/-- Prefix recognized for author-date lines of `info`. -/
def dateKey : List Char := "Date: ".toList

/-- One iteration of the `info` scanning loop (builtin/am.c lines 625-638):
subject lines are appended to the message, separated by single newlines;
the three author fields are appended to; unknown prefixes are ignored. -/
def parse_info_line (a : InfoAcc) (line : List Char) : InfoAcc :=
  match dropPref subjectKey line with
  | some x =>
    { a with msg := a.msg ++ (if a.msg.isEmpty then [] else [nl]) ++ x }
  | none =>
    match dropPref authorKey line with
    | some x => { a with author_name := a.author_name ++ x }
    | none =>
      match dropPref emailKey line with
      | some x => { a with author_email := a.author_email ++ x }
      | none =>
        match dropPref dateKey line with
        | some x => { a with author_date := a.author_date ++ x }
        | none => a

/-- The accumulator after scanning the whole `info` output. -/
def infoAcc (mi : MailInfo) : InfoAcc :=
  mi.infoLines.foldl parse_info_line ⟨[], [], [], []⟩

/-- The author name of pine's internal housekeeping messages. -/
def msid : List Char := "Mail System Internal Data".toList

/-- is_empty_file (builtin/am.c lines 21-32): 1 when the file is missing
(ENOENT) or has size zero. -/
def is_empty_file : Option (List Char) → Bool
  | none => true
  | some c => c.isEmpty

/-- In-memory am_state (builtin/am.c lines 62-79).  `cur` and `last` are C
ints fed from `strtol`, hence `Int`.  The directory path and `prec` (always
4) carry no information for the claims and are omitted. -/
structure AmState where
  cur : Int
  last : Int
  author_name : Option (List Char)
  author_email : Option (List Char)
  author_date : Option (List Char)
  msg : Option (List Char)
  deriving DecidableEq

/-- A commit object: author identity and message.  Parenthood is positional —
the history is a list with the newest commit (HEAD) first. -/
structure Commit where
  author_name : List Char
  author_email : List Char
  author_date : List Char
  msg : List Char
  deriving DecidableEq, Repr

/-- The session files builtin/am.c manipulates by name. -/
inductive FName where
  | next
  | last
  | authorScript
  | finalCommit
  | infoF
  | msgF
  | patchF
  deriving DecidableEq, Repr

/-- Filesystem operations on the session directory, in program order. -/
inductive FsOp where
  | mkdirOp
  | writeOp (n : FName) (content : List Char)
  | writeMailOp (i : Int) (m : MailInfo)
  | unlinkOp (n : FName)
  | rmRec
  deriving DecidableEq

/-- The observable on-disk state: the session directory and the repository's
commit history.  The info/msg/patch scratch files are per-iteration outputs
of the external parser and are carried inside `MailInfo` instead.  A mail
file is represented by the `MailInfo` the external parser would produce for
it. -/
structure FS where
  dirExists : Bool
  nextF : Option (List Char)
  lastF : Option (List Char)
  authorScript : Option (List Char)
  finalCommit : Option (List Char)
  mails : Int → Option MailInfo
  commits : List Commit

/-- Effect of one filesystem operation on the observable state. -/
def applyOp (fs : FS) (op : FsOp) : FS :=
  match op with
  | FsOp.mkdirOp => { fs with dirExists := true }
  | FsOp.writeOp n c =>
    match n with
    | FName.next => { fs with nextF := some c }
    | FName.last => { fs with lastF := some c }
    | FName.authorScript => { fs with authorScript := some c }
    | FName.finalCommit => { fs with finalCommit := some c }
    | _ => fs
  | FsOp.writeMailOp i m =>
    { fs with mails := fun j => if j = i then some m else fs.mails j }
  | FsOp.unlinkOp n =>
    match n with
    | FName.next => { fs with nextF := none }
    | FName.last => { fs with lastF := none }
    | FName.authorScript => { fs with authorScript := none }
    | FName.finalCommit => { fs with finalCommit := none }
    | _ => fs
  | FsOp.rmRec =>
    { fs with
      dirExists := false, nextF := none, lastF := none,
      authorScript := none, finalCommit := none, mails := fun _ => none }

/-- Apply a sequence of filesystem operations left to right. -/
def applyOps (fs : FS) (ops : List FsOp) : FS := ops.foldl applyOp fs

/-- am_in_progress (builtin/am.c lines 129-140): the directory exists and the
`last` and `next` regular files exist. -/
def am_in_progress (fs : FS) : Bool :=
  fs.dirExists && fs.lastF.isSome && fs.nextF.isSome

/-- am_destroy (builtin/am.c lines 353-360): recursively remove the session
directory. -/
def am_destroy (fs : FS) : FS := applyOp fs FsOp.rmRec

/-- The decimal rendering write_file's "%d" produces. -/
def intChars (i : Int) : List Char := (toString i).toList

/-- The filesystem operations of am_next, in program order (builtin/am.c
lines 555-559): unlink `author-script`, unlink `final-commit`, then write the
incremented counter to `next`. -/
def am_next_ops (st : AmState) : List FsOp :=
  [FsOp.unlinkOp FName.authorScript, FsOp.unlinkOp FName.finalCommit,
   FsOp.writeOp FName.next (intChars (st.cur + 1))]

/-- am_next (builtin/am.c lines 536-560): free and clear the four in-memory
per-patch fields, delete the two scratch files, increment `cur`, and write
the new value to `next`.  Returns the new state, the new filesystem, and the
trace of filesystem operations in program order. -/
def am_next (st : AmState) (fs : FS) : AmState × FS × List FsOp :=
  ({ st with
      author_name := none, author_email := none, author_date := none,
      msg := none, cur := st.cur + 1 },
   applyOps fs (am_next_ops st), am_next_ops st)

/-- write_commit_msg's effect on the `final-commit` file contents
(builtin/am.c lines 313-324): the file is opened `O_WRONLY | O_CREAT` —
without `O_TRUNC` — so `write_in_full` overwrites the first `msg_len` bytes
and any longer pre-existing contents keep their tail. -/
def write_commit_msg (old : Option (List Char)) (m : List Char) : List Char :=
  m ++ (old.getD []).drop m.length

/-- do_commit (builtin/am.c lines 706-743): write the index as a tree, commit
it with the state's authorship and message on top of the current HEAD, and
advance HEAD.  Tree contents, strict ident formatting and the reflog message
are outside the session model; the observable effect is one new commit
prepended to the history. -/
def do_commit (st : AmState) (fs : FS) : FS :=
  { fs with commits :=
      { author_name := st.author_name.getD [], author_email := st.author_email.getD [],
        author_date := st.author_date.getD [], msg := st.msg.getD [] } :: fs.commits }

/-- The splitter's contract, modelled from the spec (git-mailsplit is an
external collaborator): it populates the directory with messages numbered
1..n and its captured output yields `n`. -/
structure Split where
  n : Int
  mails : Int → Option MailInfo

/-- The external collaborators: the splitter (absent on mailsplit failure)
and the applier's exit status for each patch number. -/
structure Env where
  split : Option Split
  applyOk : Int → Bool

/-- run_apply (builtin/am.c lines 681-699): invoke `git apply --index` on the
`patch` file; nonzero exit is failure and leaves the session state untouched
(the index reload on success is invisible to the session model). -/
def run_apply (env : Env) (st : AmState) : Bool := env.applyOk st.cur

/-- Outcome of parse_mail (builtin/am.c lines 598-676). -/
inductive ParseResult where
  | skip
  | exitEmpty
  | assertFail
  | ok (name email date msg : List Char)
  deriving DecidableEq

/-- The final commit message parse_mail composes: the subject lines, a blank
line, the `msg` scratch file, normalized. -/
def composedMsg (mi : MailInfo) : List Char :=
  stripspace ((infoAcc mi).msg ++ nl :: nl :: mi.msgFile)

/-- parse_mail (builtin/am.c lines 598-676): scan the parser's `info` output;
skip pine's internal folder data; abort (exit 128) when the `patch` file is
empty or missing; otherwise compose the message and fill the four state
fields — each one asserted to be uninitialized at entry
(`assert(!state->author_name)` etc., lines 657-666); a failing assert aborts
the process. -/
def parse_mail (st : AmState) (mi : MailInfo) : ParseResult :=
  let acc := infoAcc mi
  if acc.author_name = msid then ParseResult.skip
  else if is_empty_file mi.patchFile then ParseResult.exitEmpty
  else if st.author_name ≠ none ∨ st.author_email ≠ none ∨
          st.author_date ≠ none ∨ st.msg ≠ none then ParseResult.assertFail
  else ParseResult.ok acc.author_name acc.author_email acc.author_date (composedMsg mi)

/-- How one invocation of the program ends. -/
inductive RunResult where
  | completed
  | exitEmptyPatch
  | exitApplyFail
  | bugAssert
  | exitDetectFail
  | dieBugState
  | dieOther
  deriving DecidableEq, Repr

/-- The process exit status of each outcome: 0 on success, 128 for
`exit(128)` and `die()`, 134 (SIGABRT) for a failed assert. -/
def exitCode : RunResult → Nat
  | RunResult.completed => 0
  | RunResult.bugAssert => 134
  | _ => 128

/-- The loop of am_run (builtin/am.c lines 754-787), iterated a fixed number
of times.  The iteration count passed by `am_run` equals the number of
patches left, so the count is 0 exactly when `cur > last` and the zero case
coincides with the loop's exit branch. -/
def am_run_go : Nat → AmState → FS → Env → RunResult × FS
  | 0, _, fs, _ => (RunResult.completed, am_destroy fs)
  | n + 1, st, fs, env =>
    if st.cur ≤ st.last then
      match fs.mails st.cur with
      | none => am_run_go n (am_next st fs).1 (am_next st fs).2.1 env
      | some mi =>
        match parse_mail st mi with
        | ParseResult.skip => am_run_go n (am_next st fs).1 (am_next st fs).2.1 env
        | ParseResult.exitEmpty => (RunResult.exitEmptyPatch, fs)
        | ParseResult.assertFail => (RunResult.bugAssert, fs)
        | ParseResult.ok nm em dt ms =>
          let st1 : AmState :=
            { st with
              author_name := some nm, author_email := some em,
              author_date := some dt, msg := some ms }
          let fs1 := applyOp fs (FsOp.writeOp FName.authorScript (write_author_script nm em dt))
          let fs2 := applyOp fs1 (FsOp.writeOp FName.finalCommit (write_commit_msg fs1.finalCommit ms))
          if run_apply env st1 then
            am_run_go n (am_next st1 (do_commit st1 fs2)).1 (am_next st1 (do_commit st1 fs2)).2.1 env
          else (RunResult.exitApplyFail, fs2)
    else (RunResult.completed, am_destroy fs)

/-- am_run (builtin/am.c lines 748-791): refresh the index (no session
effect), loop over patches `cur..last` — missing mail files and skipped
mails advance silently, an empty patch and a failed apply exit with 128, a
successful apply commits and advances — then destroy the session and start
the background gc (no session effect). -/
def am_run (st : AmState) (fs : FS) (env : Env) : RunResult × FS :=
  am_run_go (st.last + 1 - st.cur).toNat st fs env

/-- git's isspace (sane-ctype.h): space, tab, newline, carriage return. -/
def isGitSpace (c : Char) : Bool :=
  (c == spaceChar) || (c == tab) || (c == nl) || (c == cr)

/-- libc isspace, as consulted by strtol: also vertical tab and form feed. -/
def isLibcSpace (c : Char) : Bool :=
  isGitSpace c || (c == Char.ofNat 11) || (c == Char.ofNat 12)

/-- strbuf_trim: drop whitespace from both ends (read_state_file passes
trim=1 for `next` and `last`). -/
def gitTrim (s : List Char) : List Char :=
  ((s.dropWhile isGitSpace).reverse.dropWhile isGitSpace).reverse

/-- Numeric value of a decimal digit run. -/
def natOfDigits (l : List Char) : Nat :=
  l.foldl (fun a c => a * 10 + (c.toNat - 48)) 0

/-- strtol(buf, NULL, 10): skip leading whitespace, accept an optional sign,
consume the leading digit run; with no digits the result is 0.  (LONG_MAX
clamping is immaterial here.) -/
def strtol10 (s : List Char) : Int :=
  match s.dropWhile isLibcSpace with
  | [] => 0
  | c :: rest =>
    if c = '-' then - Int.ofNat (natOfDigits (rest.takeWhile Char.isDigit))
    else if c = '+' then Int.ofNat (natOfDigits (rest.takeWhile Char.isDigit))
    else Int.ofNat (natOfDigits ((c :: rest).takeWhile Char.isDigit))

/-- How am_load ends: die("BUG: ...") when `next` or `last` is missing,
die when the author-script cannot be parsed, otherwise a loaded state. -/
inductive LoadResult where
  | ok (st : AmState)
  | dieNextMissing
  | dieLastMissing
  | dieAuthorScript
  deriving DecidableEq

/-- am_load (builtin/am.c lines 329-347): read `next` and `last` (dying with
a BUG message if either is missing) through `strtol`, parse the
author-script if present (dying if malformed, leaving the three fields unset
if absent), and read `final-commit` if present (its absence is ignored). -/
def am_load (fs : FS) : LoadResult :=
  match fs.nextF with
  | none => LoadResult.dieNextMissing
  | some c1 =>
    match fs.lastF with
    | none => LoadResult.dieLastMissing
    | some c2 =>
      match fs.authorScript with
      | none =>
        LoadResult.ok
          { cur := strtol10 (gitTrim c1), last := strtol10 (gitTrim c2),
            author_name := none, author_email := none, author_date := none,
            msg := fs.finalCommit }
      | some asf =>
        match read_author_script asf with
        | none => LoadResult.dieAuthorScript
        | some (n, e, d) =>
          LoadResult.ok
            { cur := strtol10 (gitTrim c1), last := strtol10 (gitTrim c2),
              author_name := some n, author_email := some e,
              author_date := some d, msg := fs.finalCommit }

/-- The writes split_mail_mbox causes, modelled from the spec: mailsplit
populates the directory with the numbered message files 1..n (a number the
splitter dropped simply has no file). -/
def splitWriteOps (sp : Split) : List FsOp :=
  (List.range sp.n.toNat).filterMap
    (fun k => (sp.mails (Int.ofNat (k + 1))).map (fun m => FsOp.writeMailOp (Int.ofNat (k + 1)) m))

/-- The filesystem operations of a successful am_setup in program order
(builtin/am.c lines 503-530): create the directory, let the splitter write
the message files, then write `next` (with cur = 1) and finally `last`. -/
def am_setup_ops (sp : Split) : List FsOp :=
  FsOp.mkdirOp :: splitWriteOps sp ++
    [FsOp.writeOp FName.next (intChars 1), FsOp.writeOp FName.last (intChars sp.n)]

/-- How am_setup ends. -/
inductive SetupResult where
  | ok (st : AmState) (fs : FS) (ops : List FsOp)
  | failSplit (fs : FS)
  | failDetect

/-- am_setup (builtin/am.c lines 503-530).  The patch format is the resolved
value after option parsing and detection; unknown means detection failed
(exit 128).  mkdir, then split — a split failure destroys the directory and
dies — then `next` and `last` are written, in that order, as the last two
files of setup. -/
def am_setup (fmt : PatchFormat) (env : Env) (fs : FS) : SetupResult :=
  match fmt with
  | PatchFormat.unknown => SetupResult.failDetect
  | PatchFormat.mbox =>
    match env.split with
    | none => SetupResult.failSplit (am_destroy (applyOp fs FsOp.mkdirOp))
    | some sp =>
      SetupResult.ok
        { cur := 1, last := sp.n, author_name := none, author_email := none,
          author_date := none, msg := none }
        (applyOps fs (am_setup_ops sp))
        (am_setup_ops sp)

/-- cmd_am (builtin/am.c lines 808-872), after option parsing: when a session
is in progress, load it and run; otherwise set up a new session from the
given paths and run. -/
def cmd_am (fmt : PatchFormat) (env : Env) (fs : FS) : RunResult × FS :=
  if am_in_progress fs then
    match am_load fs with
    | LoadResult.ok st => am_run st fs env
    | LoadResult.dieNextMissing => (RunResult.dieBugState, fs)
    | LoadResult.dieLastMissing => (RunResult.dieBugState, fs)
    | LoadResult.dieAuthorScript => (RunResult.dieOther, fs)
  else
    match am_setup fmt env fs with
    | SetupResult.failDetect => (RunResult.exitDetectFail, fs)
    | SetupResult.failSplit fs1 => (RunResult.dieOther, fs1)
    | SetupResult.ok st fs1 _ => am_run st fs1 env

/-- Does a trace of filesystem operations end with a write to `next`?  This is
the operative phrase of the claim that `next` is the last file written during
setup. -/
def lastOpWritesNext (ops : List FsOp) : Bool :=
  match ops.getLast? with
  | some (FsOp.writeOp FName.next _) => true
  | _ => false

/-- The author-script contents as written, except that the final newline is
missing; read_author_script also accepts this form because `strbuf_getline`
returns a last unterminated line and the `fgetc` check then sees EOF. -/
def write_author_script_noeol (n e d : List Char) : List Char :=
  authorNameKey ++ eqChar :: sq_quote n ++
    nl :: authorEmailKey ++ eqChar :: sq_quote e ++
    nl :: authorDateKey ++ eqChar :: sq_quote d

/-! ## Concrete instances used by counterexamples and witnesses -/

/-- A detection input whose first non-blank line is not a From line and not a
header line, while every line after it up to the first blank line is a header
line. -/
def c4file : List Char := "foo\nX: y\n\n".toList

/-- A detection input every line of which, up to the first blank line, is a
header line. -/
def c4good : List Char := "A: b\n\nrest".toList

/-- A message on which the external parser reports an ordinary author, a
subject, a body and a non-empty patch. -/
def miReal : MailInfo :=
  { infoLines := ["Subject: Hello".toList, "Author: A U Thor".toList,
      "Email: a@u.th".toList, "Date: Mon, 1 Jan 2001 00:00:00 +0000".toList],
    msgFile := "Added line\n".toList,
    patchFile := some "diff\n".toList }

/-- A message whose author is pine's internal folder data. -/
def miSkipC : MailInfo :=
  { infoLines := ["Author: Mail System Internal Data".toList],
    msgFile := [], patchFile := none }

/-- A message with an ordinary author but an empty patch file. -/
def miEmptyC : MailInfo :=
  { infoLines := ["Author: Someone".toList], msgFile := [], patchFile := some [] }

/-- A clean in-memory state about to process patch 2 of 2. -/
def stW : AmState :=
  { cur := 2, last := 2, author_name := none, author_email := none,
    author_date := none, msg := none }

/-- A live session directory holding patch 2 of 2, with no scratch files. -/
def fsW : FS :=
  { dirExists := true, nextF := some (intChars 2), lastF := some (intChars 2),
    authorScript := none, finalCommit := none,
    mails := fun j => if j = 2 then some miReal else none, commits := [] }

/-- The session of `fsW` with a skip-mail as patch 2. -/
def fsWskip : FS :=
  { fsW with mails := fun j => if j = 2 then some miSkipC else none }

/-- The session of `fsW` with an empty-patch mail as patch 2. -/
def fsWempty : FS :=
  { fsW with mails := fun j => if j = 2 then some miEmptyC else none }

/-- The session left behind by an apply failure on patch 2: scratch files
present, holding patch 2's authorship and message. -/
def fsResume : FS :=
  { fsW with
    authorScript := some (write_author_script "A U Thor".toList "a@u.th".toList
      "Mon, 1 Jan 2001 00:00:00 +0000".toList),
    finalCommit := some "Hello\n\nAdded line\n".toList }

/-- A session whose `next` and `last` files hold non-numeric text. -/
def fsNonNum : FS :=
  { fsW with nextF := some "abc".toList, lastF := some "xy".toList }

/-- An environment whose applier succeeds on every patch (no splitter). -/
def envOK : Env := { split := none, applyOk := fun _ => true }

/-- An environment whose applier fails on every patch (no splitter). -/
def envFail : Env := { split := none, applyOk := fun _ => false }

/-- A splitter result with a single message. -/
def sp0 : Split := { n := 1, mails := fun j => if j = 1 then some miReal else none }

/-- An environment whose splitter produces `sp0`. -/
def envSplit : Env := { split := some sp0, applyOk := fun _ => true }

/-- A filesystem with no session directory and an empty repository. -/
def fsEmpty : FS :=
  { dirExists := false, nextF := none, lastF := none, authorScript := none,
    finalCommit := none, mails := fun _ => none, commits := [] }

/-- The state am_load produces from `fsResume`. -/
def stResume : AmState :=
  { cur := 2, last := 2,
    author_name := some "A U Thor".toList,
    author_email := some "a@u.th".toList,
    author_date := some "Mon, 1 Jan 2001 00:00:00 +0000".toList,
    msg := some "Hello\n\nAdded line\n".toList }

/-! # Theorems -/

/-! ## Prefix stripping -/

theorem dropPref_append (p r : List Char) : dropPref p (p ++ r) = some r := by
  induction p with
  | nil => rfl
  | cons a ps ih => simp [dropPref, ih]

theorem dropPref_inv {p s r : List Char} (h : dropPref p s = some r) : s = p ++ r := by
  induction p generalizing s with
  | nil =>
    simp only [dropPref, Option.some.injEq] at h
    simp [h]
  | cons a ps ih =>
    cases s with
    | nil => simp [dropPref] at h
    | cons c cs =>
      simp only [dropPref] at h
      split at h
      · next heq => subst heq; simpa using ih h
      · exact absurd h (by simp)

/-! ## Line reading -/

theorem takeWhile_notNl {l r : List Char} (h : nl ∉ l) :
    (l ++ nl :: r).takeWhile notNl = l ∧ (l ++ nl :: r).dropWhile notNl = nl :: r := by
  induction l with
  | nil => constructor <;> simp [notNl]
  | cons a t ih =>
    have ha : notNl a = true := by
      have : a ≠ nl := fun hc => h (by simp [hc])
      simp [notNl, this]
    have ht : nl ∉ t := fun hc => h (List.mem_cons_of_mem a hc)
    constructor
    · simpa [List.takeWhile_cons, ha] using (ih ht).1
    · simpa [List.dropWhile_cons, ha] using (ih ht).2

theorem readLine_append {l r : List Char} (h : nl ∉ l) :
    readLine (l ++ nl :: r) = some (l, r) := by
  obtain ⟨h1, h2⟩ := takeWhile_notNl (r := r) h
  cases l with
  | nil => simp_all [readLine]
  | cons a t => simp_all [readLine]

theorem readLine_self {l : List Char} (h : nl ∉ l) (h2 : l ≠ []) :
    readLine l = some (l, []) := by
  have h1 : l.takeWhile notNl = l := by
    rw [List.takeWhile_eq_self_iff]
    intro a ha
    have : a ≠ nl := fun hc => h (hc ▸ ha)
    simp [notNl, this]
  have h3 : l.dropWhile notNl = [] := by
    rw [List.dropWhile_eq_nil_iff]
    intro a ha
    have : a ≠ nl := fun hc => h (hc ▸ ha)
    simp [notNl, this]
  cases l with
  | nil => exact absurd rfl h2
  | cons a t => simp [readLine, h1, h3]

theorem readLine_inv {f l r : List Char} (h : readLine f = some (l, r)) :
    nl ∉ l ∧ (f = l ++ nl :: r ∨ (f = l ∧ r = [])) := by
  cases f with
  | nil => simp [readLine] at h
  | cons c cs =>
    simp only [readLine, Option.some.injEq, Prod.mk.injEq] at h
    obtain ⟨hl, hr⟩ := h
    refine ⟨?_, ?_⟩
    · intro hmem
      have := List.mem_takeWhile_imp (hl ▸ hmem)
      simp [notNl] at this
    · rcases hd : (c :: cs).dropWhile notNl with _ | ⟨x, xs⟩
      · right
        refine ⟨?_, ?_⟩
        · conv_lhs => rw [← List.takeWhile_append_dropWhile notNl (c :: cs)]
          rw [hd, hl]
          simp
        · rw [← hr, hd]
          rfl
      · have hx : notNl x = false := by
          have := List.head_dropWhile_not notNl (c :: cs)
          rw [hd] at this
          simpa using this
        have hxnl : x = nl := by
          simpa [notNl] using hx
        left
        conv_lhs => rw [← List.takeWhile_append_dropWhile notNl (c :: cs)]
        rw [hd, hl, hxnl, ← hr, hd]
        simp

/-! ## Single-quote codec -/

theorem sq_body_cons_ne {c : Char} (rest : List Char) (h1 : ¬c = sq) (h2 : ¬c = nulChar) :
    sq_body (c :: rest) = (sq_body rest).map (fun v => c :: v) := by
  rw [sq_body.eq_def]
  change (if c = sq then _
    else if c = nulChar then none
    else Option.map (fun v => c :: v) (sq_body rest)) = _
  rw [if_neg h1, if_neg h2]

theorem sq_body_nul (rest : List Char) : sq_body (nulChar :: rest) = none := by
  rw [sq_body.eq_def]
  change (if nulChar = sq then _
    else if nulChar = nulChar then none
    else Option.map (fun v => nulChar :: v) (sq_body rest)) = _
  rw [if_neg (by decide), if_pos rfl]

theorem sq_body_sq_esc (r2 : List Char) :
    sq_body (sq :: bs :: sq :: sq :: r2) = (sq_body r2).map (fun v => sq :: v) := by
  simp [sq_body]

theorem sq_body_sq_end : sq_body [sq] = some [] := by
  simp [sq_body]

theorem sq_esc_sq : sq_esc sq = [sq, bs, sq, sq] := by
  simp [sq_esc]

theorem sq_esc_ne {c : Char} (h : ¬c = sq) : sq_esc c = [c] := by
  simp [sq_esc, h]

theorem sq_body_quote {s : List Char} (h : nulChar ∉ s) :
    sq_body ((s.map sq_esc).flatten ++ [sq]) = some s := by
  induction s with
  | nil => simpa using sq_body_sq_end
  | cons a t ih =>
    have ht : nulChar ∉ t := fun hc => h (List.mem_cons_of_mem a hc)
    by_cases ha : a = sq
    · subst ha
      have he : (List.map sq_esc (sq :: t)).flatten ++ [sq] =
          sq :: bs :: sq :: sq :: ((List.map sq_esc t).flatten ++ [sq]) := by
        simp [sq_esc_sq]
      rw [he, sq_body_sq_esc, ih ht]
      rfl
    · have hnul : ¬a = nulChar := fun hc => h (by simp [hc])
      have he : (List.map sq_esc (a :: t)).flatten ++ [sq] =
          a :: ((List.map sq_esc t).flatten ++ [sq]) := by
        simp [sq_esc_ne ha]
      rw [he, sq_body_cons_ne _ ha hnul, ih ht]
      rfl

theorem sq_quote_round {s : List Char} (h : nulChar ∉ s) :
    sq_dequote (sq_quote s) = some s := by
  have he : sq_quote s = sq :: ((s.map sq_esc).flatten ++ [sq]) := by
    simp [sq_quote]
  rw [he]
  show (if sq = sq then sq_body ((s.map sq_esc).flatten ++ [sq]) else none) = some s
  rw [if_pos rfl]
  exact sq_body_quote h

theorem sq_body_inv (t : List Char) : ∀ v, sq_body t = some v →
    t = (v.map sq_esc).flatten ++ [sq] ∧ nulChar ∉ v ∧ ∀ c ∈ v, c ∈ t := by
  induction t using sq_body.induct with
  | case1 =>
    intro v h
    simp [sq_body] at h
  | case2 b q1 q2 r2 hbq ih =>
    obtain ⟨hb, hq1, hq2⟩ := hbq
    subst hb; subst hq1; subst hq2
    intro v h
    rw [sq_body_sq_esc] at h
    rcases hv : sq_body r2 with _ | v2
    · rw [hv] at h; exact absurd h (by exact Option.noConfusion)
    · rw [hv] at h
      simp only [Option.map_some', Option.some.injEq] at h
      obtain ⟨h1, h2, h3⟩ := ih v2 hv
      subst h
      refine ⟨?_, ?_, ?_⟩
      · simp only [List.map_cons, List.flatten_cons, sq_esc, if_pos rfl]
        rw [List.append_assoc]
        simp [h1]
      · intro hc
        rcases List.mem_cons.mp hc with hc | hc
        · exact absurd hc.symm (by decide)
        · exact h2 hc
      · intro c hc
        rcases List.mem_cons.mp hc with hc | hc
        · simp [hc]
        · have := h3 c hc
          simp [this]
  | case3 b q1 q2 r2 hbq =>
    intro v h
    rw [sq_body.eq_def] at h
    change (if sq = sq then
        (if b = bs ∧ q1 = sq ∧ q2 = sq then Option.map (fun v => sq :: v) (sq_body r2)
          else none)
      else _) = some v at h
    rw [if_pos rfl, if_neg hbq] at h
    exact absurd h (by simp)
  | case4 =>
    intro v h
    rw [sq_body_sq_end] at h
    cases h
    exact ⟨rfl, by simp, by simp⟩
  | case5 rest h3 hne =>
    intro v h
    exfalso
    rcases rest with _ | ⟨x, _ | ⟨y, _ | ⟨z, r4⟩⟩⟩
    · exact hne rfl
    · exact Option.noConfusion h
    · exact Option.noConfusion h
    · exact h3 x y z r4 rfl
  | case6 rest hns =>
    intro v h
    rw [sq_body_nul] at h
    exact Option.noConfusion h
  | case7 c rest hcs hcn ih =>
    intro v h
    rw [sq_body_cons_ne rest hcs hcn] at h
    rcases hv : sq_body rest with _ | v2
    · rw [hv] at h; exact absurd h (by exact Option.noConfusion)
    · rw [hv] at h
      simp only [Option.map_some', Option.some.injEq] at h
      obtain ⟨h1, h2, h3⟩ := ih v2 hv
      subst h
      refine ⟨?_, ?_, ?_⟩
      · simp only [List.map_cons, List.flatten_cons, sq_esc, if_neg hcs]
        rw [h1]
        simp
      · intro hmem
        rcases List.mem_cons.mp hmem with hc | hc
        · exact hcn hc.symm
        · exact h2 hc
      · intro a ha
        rcases List.mem_cons.mp ha with hc | hc
        · simp [hc]
        · have := h3 a hc
          simp [this]

theorem sq_dequote_inv {q v : List Char} (h : sq_dequote q = some v) :
    q = sq_quote v ∧ nulChar ∉ v ∧ ∀ c ∈ v, c ∈ q := by
  cases q with
  | nil => simp [sq_dequote] at h
  | cons c rest =>
    simp only [sq_dequote] at h
    split at h
    · next hc =>
      subst hc
      obtain ⟨h1, h2, h3⟩ := sq_body_inv rest v h
      refine ⟨by simp [sq_quote, h1], h2, ?_⟩
      intro a ha
      exact List.mem_cons_of_mem sq (h3 a ha)
    · exact absurd h (by simp)

theorem mem_sq_quote {c : Char} {v : List Char} (h : c ∈ sq_quote v) :
    c = sq ∨ c = bs ∨ c ∈ v := by
  rw [sq_quote] at h
  rcases List.mem_cons.mp h with h | h
  · exact Or.inl h
  rcases List.mem_append.mp h with h | h
  · rw [List.mem_flatten] at h
    obtain ⟨l, hl, hcl⟩ := h
    rw [List.mem_map] at hl
    obtain ⟨a, ha, hal⟩ := hl
    subst hal
    by_cases hq : a = sq
    · simp only [sq_esc, if_pos hq] at hcl
      have : c = sq ∨ c = bs := by
        simp only [List.mem_cons, List.not_mem_nil, or_false] at hcl
        tauto
      tauto
    · simp only [sq_esc, if_neg hq, List.mem_singleton] at hcl
      exact Or.inr (Or.inr (hcl ▸ ha))
  · rw [List.mem_singleton] at h
    exact Or.inl h

/-! ## The shell-variable line -/

theorem nl_not_mem_quoted {key v : List Char} (hk : nl ∉ key) (hv : goodVal v) :
    nl ∉ key ++ eqChar :: sq_quote v := by
  intro hmem
  rcases List.mem_append.mp hmem with h | h
  · exact hk h
  · rcases List.mem_cons.mp h with h | h
    · exact absurd h.symm (by decide)
    · rcases mem_sq_quote h with h | h | h
      · exact absurd h (by decide)
      · exact absurd h (by decide)
      · exact hv.1 h

theorem dropPref_cons (x : Char) (y : List Char) : dropPref [x] (x :: y) = some y := by
  simp [dropPref]

theorem read_shell_var_write {key v rest : List Char} (hk : nl ∉ key)
    (hv : goodVal v) :
    read_shell_var ((key ++ eqChar :: sq_quote v) ++ nl :: rest) key = some (v, rest) := by
  have hr := readLine_append (l := key ++ eqChar :: sq_quote v) (r := rest)
    (nl_not_mem_quoted hk hv)
  simp only [read_shell_var, hr, dropPref_append key (eqChar :: sq_quote v),
    dropPref_cons, sq_quote_round hv.2]

theorem read_shell_var_write_eof {key v : List Char} (hk : nl ∉ key)
    (hv : goodVal v) :
    read_shell_var (key ++ eqChar :: sq_quote v) key = some (v, []) := by
  have hne : key ++ eqChar :: sq_quote v ≠ [] := by simp
  have hr := readLine_self (nl_not_mem_quoted hk hv) hne
  simp only [read_shell_var, hr, dropPref_append key (eqChar :: sq_quote v),
    dropPref_cons, sq_quote_round hv.2]

theorem read_shell_var_inv {f key v rest : List Char}
    (h : read_shell_var f key = some (v, rest)) :
    goodVal v ∧ (f = (key ++ eqChar :: sq_quote v) ++ nl :: rest ∨
      (f = key ++ eqChar :: sq_quote v ∧ rest = [])) := by
  rw [read_shell_var] at h
  rcases hrl : readLine f with _ | ⟨line, rest1⟩
  · simp only [hrl] at h
    exact Option.noConfusion h
  simp only [hrl] at h
  rcases hd1 : dropPref key line with _ | s1
  · simp only [hd1] at h
    exact Option.noConfusion h
  simp only [hd1] at h
  rcases hd2 : dropPref [eqChar] s1 with _ | s2
  · simp only [hd2] at h
    exact Option.noConfusion h
  simp only [hd2] at h
  rcases hq : sq_dequote s2 with _ | v2
  · simp only [hq] at h
    exact Option.noConfusion h
  simp only [hq] at h
  simp only [Option.some.injEq, Prod.mk.injEq] at h
  obtain ⟨hvv, hrr⟩ := h
  have hq2 : sq_dequote s2 = some v := by rw [hq, hvv]
  have hrl2 : readLine f = some (line, rest) := by rw [hrl, hrr]
  obtain ⟨hnl, hform⟩ := readLine_inv hrl2
  obtain ⟨hs2, hnul, hmem⟩ := sq_dequote_inv hq2
  have hline : line = key ++ eqChar :: sq_quote v := by
    have h1 := dropPref_inv hd1
    have h2 := dropPref_inv hd2
    rw [h1, h2, hs2]
    simp
  have hvnl : nl ∉ v := by
    intro hc
    apply hnl
    rw [hline]
    have hq2 : nl ∈ sq_quote v := hs2 ▸ hmem nl hc
    simp [hq2]
  refine ⟨⟨hvnl, hnul⟩, ?_⟩
  rcases hform with hform | ⟨hform, hrest⟩
  · left; rw [hform, hline]
  · right; exact ⟨by rw [hform, hline], hrest⟩

/-! ## The author-script round trip (claim C3) -/

theorem read_shell_var_nil (key : List Char) : read_shell_var [] key = none := by
  simp [read_shell_var, readLine]

theorem read_write_author_script {n e d : List Char}
    (hn : goodVal n) (he : goodVal e) (hd : goodVal d) :
    read_author_script (write_author_script n e d) = some (n, e, d) := by
  have k1 : nl ∉ authorNameKey := by decide
  have k2 : nl ∉ authorEmailKey := by decide
  have k3 : nl ∉ authorDateKey := by decide
  have e1 : read_shell_var (write_author_script n e d) authorNameKey =
      some (n, authorEmailKey ++ eqChar :: sq_quote e ++
        nl :: authorDateKey ++ eqChar :: sq_quote d ++ [nl]) := by
    have h := @read_shell_var_write authorNameKey n
      (authorEmailKey ++ eqChar :: sq_quote e ++
        nl :: authorDateKey ++ eqChar :: sq_quote d ++ [nl]) k1 hn
    simpa [write_author_script] using h
  have e2 : read_shell_var (authorEmailKey ++ eqChar :: sq_quote e ++
      nl :: authorDateKey ++ eqChar :: sq_quote d ++ [nl]) authorEmailKey =
      some (e, authorDateKey ++ eqChar :: sq_quote d ++ [nl]) := by
    have h := @read_shell_var_write authorEmailKey e
      (authorDateKey ++ eqChar :: sq_quote d ++ [nl]) k2 he
    simpa using h
  have e3 : read_shell_var (authorDateKey ++ eqChar :: sq_quote d ++ [nl])
      authorDateKey = some (d, []) := by
    have h := @read_shell_var_write authorDateKey d ([] : List Char) k3 hd
    simpa using h
  rw [read_author_script]
  simp only [e1, e2, e3]
  simp

theorem read_write_author_script_noeol {n e d : List Char}
    (hn : goodVal n) (he : goodVal e) (hd : goodVal d) :
    read_author_script (write_author_script_noeol n e d) = some (n, e, d) := by
  have k1 : nl ∉ authorNameKey := by decide
  have k2 : nl ∉ authorEmailKey := by decide
  have k3 : nl ∉ authorDateKey := by decide
  have e1 : read_shell_var (write_author_script_noeol n e d) authorNameKey =
      some (n, authorEmailKey ++ eqChar :: sq_quote e ++
        nl :: authorDateKey ++ eqChar :: sq_quote d) := by
    have h := @read_shell_var_write authorNameKey n
      (authorEmailKey ++ eqChar :: sq_quote e ++
        nl :: authorDateKey ++ eqChar :: sq_quote d) k1 hn
    simpa [write_author_script_noeol] using h
  have e2 : read_shell_var (authorEmailKey ++ eqChar :: sq_quote e ++
      nl :: authorDateKey ++ eqChar :: sq_quote d) authorEmailKey =
      some (e, authorDateKey ++ eqChar :: sq_quote d) := by
    have h := @read_shell_var_write authorEmailKey e
      (authorDateKey ++ eqChar :: sq_quote d) k2 he
    simpa using h
  have e3 : read_shell_var (authorDateKey ++ eqChar :: sq_quote d)
      authorDateKey = some (d, []) := by
    simpa using @read_shell_var_write_eof authorDateKey d k3 hd
  rw [read_author_script]
  simp only [e1, e2, e3]
  simp

/-- Claim C3 (counterexample): the round trip fails as soon as a value
contains a newline — the quoted value spans two physical lines, so
`read_shell_var` sees an unterminated quoted string and `read_author_script`
returns the parse error instead of the original triple. -/
theorem claim_C3_counterexample :
    read_author_script (write_author_script ['a', nl, 'b'] ['e'] ['d']) ≠
      some (['a', nl, 'b'], ['e'], ['d']) := by decide

/-- Claim C3 (amended): for author_name, author_email, author_date values
that are byte strings with no NUL and no newline, reading back the file
produced by write_author_script yields exactly the same three values; and
read_author_script succeeds on exactly the files of the three-line
KEY='value' form — the writer's output, or that output with the final
newline missing — returning the parse-error result (-1) on every other file
(missing key, wrong key order, malformed quoting, trailing bytes). -/
theorem claim_C3_roundtrip (file n e d : List Char) :
    read_author_script file = some (n, e, d) ↔
      (goodVal n ∧ goodVal e ∧ goodVal d ∧
        (file = write_author_script n e d ∨
          file = write_author_script_noeol n e d)) := by
  constructor
  · intro h
    rw [read_author_script] at h
    rcases h1 : read_shell_var file authorNameKey with _ | ⟨n1, r1⟩
    · simp only [h1] at h
      exact Option.noConfusion h
    simp only [h1] at h
    rcases h2 : read_shell_var r1 authorEmailKey with _ | ⟨e1, r2⟩
    · simp only [h2] at h
      exact Option.noConfusion h
    simp only [h2] at h
    rcases h3 : read_shell_var r2 authorDateKey with _ | ⟨d1, r3⟩
    · simp only [h3] at h
      exact Option.noConfusion h
    simp only [h3] at h
    by_cases hr3 : r3 = []
    case neg =>
      rw [if_neg hr3] at h
      exact Option.noConfusion h
    rw [if_pos hr3] at h
    simp only [Option.some.injEq, Prod.mk.injEq] at h
    obtain ⟨hn1, he1, hd1⟩ := h
    subst hn1; subst he1; subst hd1; subst hr3
    have hne1 : r1 ≠ [] := by
      intro hc
      rw [hc, read_shell_var_nil] at h2
      exact Option.noConfusion h2
    have hne2 : r2 ≠ [] := by
      intro hc
      rw [hc, read_shell_var_nil] at h3
      exact Option.noConfusion h3
    obtain ⟨hgn, hf1⟩ := read_shell_var_inv h1
    obtain ⟨hge, hf2⟩ := read_shell_var_inv h2
    obtain ⟨hgd, hf3⟩ := read_shell_var_inv h3
    refine ⟨hgn, hge, hgd, ?_⟩
    rcases hf1 with hf1 | ⟨_, hc⟩
    swap
    · exact absurd hc hne1
    rcases hf2 with hf2 | ⟨_, hc⟩
    swap
    · exact absurd hc hne2
    rcases hf3 with hf3 | ⟨hf3, _⟩
    · left
      rw [hf1, hf2, hf3]
      simp [write_author_script]
    · right
      rw [hf1, hf2, hf3]
      simp [write_author_script_noeol]
  · rintro ⟨hgn, hge, hgd, hf | hf⟩
    · subst hf
      exact read_write_author_script hgn hge hgd
    · subst hf
      exact read_write_author_script_noeol hgn hge hgd

/-- Claim C3 (witness): the amended round trip instantiated at a concrete
newline-free triple. -/
theorem claim_C3_witness :
    read_author_script (write_author_script ['a'] ['b'] ['c']) =
      some (['a'], ['b'], ['c']) :=
  (claim_C3_roundtrip (write_author_script ['a'] ['b'] ['c']) ['a'] ['b'] ['c']).mpr
    ⟨by decide, by decide, by decide, Or.inl rfl⟩

/-! ## Patch format detection (claim C4) -/

theorem is_mail_lines_eq (ls : List (List Char)) :
    is_mail_lines ls = all_headerish ls := by
  induction ls with
  | nil => rfl
  | cons line rest ih =>
    rw [is_mail_lines]
    by_cases hb : line.isEmpty = true
    · rw [if_pos hb]
      simp [all_headerish, upToBlank, hb]
    · rw [if_neg hb]
      have hbf : line.isEmpty = false := by
        revert hb
        cases line.isEmpty <;> simp
      have hbe : (!line.isEmpty) = true := by rw [hbf]; rfl
      have hu : all_headerish (line :: rest) =
          (headerish line && all_headerish rest) := by
        rw [all_headerish, upToBlank, List.takeWhile_cons, if_pos hbe, List.all_cons]
        rfl
      by_cases hi : (line.headD nulChar == tab || line.headD nulChar == spaceChar) = true
      · rw [if_pos hi, hu, ih]
        have hh : headerish line = true := by
          rcases Bool.or_eq_true_iff.mp hi with h | h
          · simp only [headerish, h, Bool.true_or]
          · simp only [headerish, h, Bool.true_or, Bool.or_true]
        rw [hh, Bool.true_and]
      · rw [if_neg hi]
        have hif : (line.headD nulChar == tab || line.headD nulChar == spaceChar) = false := by
          revert hi
          cases (line.headD nulChar == tab || line.headD nulChar == spaceChar) <;> simp
        obtain ⟨hi1, hi2⟩ := Bool.or_eq_false_iff.mp hif
        by_cases hm : header_match line = true
        · rw [if_pos hm, hu, ih]
          have hh : headerish line = true := by
            simp only [headerish, hm, Bool.or_true]
          rw [hh, Bool.true_and]
        · rw [if_neg hm, hu]
          have hmf : header_match line = false := by
            revert hm
            cases header_match line <;> simp
          have hh : headerish line = false := by
            simp only [headerish, hi1, hi2, hmf, Bool.false_or]
          rw [hh, Bool.false_and]

/-- Claim C4 (counterexample): on the file `foo\nX: y\n\n` the first
non-blank line is `foo` — neither a `From ` nor a `From: ` line — and every
line after it up to the first blank line matches the header regex, yet
detect_patch_format answers unknown, not mbox: `is_mail` rewinds to the start
of the file and rejects the non-header line `foo` itself. -/
theorem claim_C4_counterexample :
    (fromBlankKey.isPrefixOf (skip_blanks_lines (splitLinesCRLF c4file)).1 = false ∧
     fromColonKey.isPrefixOf (skip_blanks_lines (splitLinesCRLF c4file)).1 = false ∧
     (skip_blanks_lines (splitLinesCRLF c4file)).1 ≠ []) ∧
    ¬(detect_patch_format c4file = PatchFormat.mbox ↔
      all_headerish (skip_blanks_lines (splitLinesCRLF c4file)).2 = true) := by
  decide

/-- Claim C4 (amended): for an input file whose first non-blank line L1 does
not begin with `From ` or `From: `, detect_patch_format classifies the input
as Mbox if and only if every non-blank, non-indented line among ALL lines
from the beginning of the file up to the first blank line — L1 included,
because is_mail rewinds the stream to offset 0 before scanning — matches the
header-field-name regex `^[!-9;-~]+:`. -/
theorem claim_C4_detect (s : List Char)
    (h1 : fromBlankKey.isPrefixOf (skip_blanks_lines (splitLinesCRLF s)).1 = false)
    (h2 : fromColonKey.isPrefixOf (skip_blanks_lines (splitLinesCRLF s)).1 = false)
    (h3 : (skip_blanks_lines (splitLinesCRLF s)).1.isEmpty = false) :
    detect_patch_format s = PatchFormat.mbox ↔
      all_headerish (splitLinesCRLF s) = true := by
  simp only [detect_patch_format, h1, h2, h3, Bool.or_self, Bool.not_false,
    Bool.true_and, Bool.false_eq_true, if_false]
  rw [is_mail, is_mail_lines_eq]
  by_cases hh : all_headerish (splitLinesCRLF s) = true
  · rw [if_pos hh]
    simp [hh]
  · rw [if_neg hh]
    simp [hh]

/-- Claim C4 (witness): the amended equivalence evaluated on a concrete file
that is all header lines up to the first blank line; detection answers
mbox. -/
theorem claim_C4_witness :
    detect_patch_format c4good = PatchFormat.mbox :=
  (claim_C4_detect c4good (by decide) (by decide) (by decide)).mpr (by decide)

/-! ## The per-patch loop -/

theorem am_next_state (st : AmState) (fs : FS) :
    (am_next st fs).1 =
      { st with
        author_name := none, author_email := none, author_date := none,
        msg := none, cur := st.cur + 1 } := rfl

theorem am_next_fs (st : AmState) (fs : FS) :
    (am_next st fs).2.1 =
      { fs with
        authorScript := none, finalCommit := none,
        nextF := some (intChars (st.cur + 1)) } := rfl

theorem am_next_trace (st : AmState) (fs : FS) :
    (am_next st fs).2.2 =
      [FsOp.unlinkOp FName.authorScript, FsOp.unlinkOp FName.finalCommit,
       FsOp.writeOp FName.next (intChars (st.cur + 1))] := rfl

theorem parse_mail_skip {st : AmState} {mi : MailInfo}
    (h : (infoAcc mi).author_name = msid) :
    parse_mail st mi = ParseResult.skip := by
  rw [parse_mail]
  simp only [if_pos h]

theorem parse_mail_empty {st : AmState} {mi : MailInfo}
    (h : (infoAcc mi).author_name ≠ msid)
    (he : is_empty_file mi.patchFile = true) :
    parse_mail st mi = ParseResult.exitEmpty := by
  rw [parse_mail]
  rw [if_neg h, if_pos he]

theorem parse_mail_ok {st : AmState} {mi : MailInfo}
    (h : (infoAcc mi).author_name ≠ msid)
    (he : is_empty_file mi.patchFile = false)
    (h1 : st.author_name = none) (h2 : st.author_email = none)
    (h3 : st.author_date = none) (h4 : st.msg = none) :
    parse_mail st mi = ParseResult.ok (infoAcc mi).author_name
      (infoAcc mi).author_email (infoAcc mi).author_date (composedMsg mi) := by
  rw [parse_mail]
  rw [if_neg h, if_neg (by simp [he]), if_neg (by simp [h1, h2, h3, h4])]

theorem parse_mail_not_assert {st : AmState} {mi : MailInfo}
    (h1 : st.author_name = none) (h2 : st.author_email = none)
    (h3 : st.author_date = none) (h4 : st.msg = none) :
    parse_mail st mi ≠ ParseResult.assertFail := by
  by_cases ha : (infoAcc mi).author_name = msid
  · rw [parse_mail_skip ha]
    exact ParseResult.noConfusion
  by_cases hb : is_empty_file mi.patchFile = true
  · rw [parse_mail_empty ha hb]
    exact ParseResult.noConfusion
  · have hb2 : is_empty_file mi.patchFile = false := by
      revert hb
      cases is_empty_file mi.patchFile <;> simp
    rw [parse_mail_ok ha hb2 h1 h2 h3 h4]
    exact ParseResult.noConfusion

theorem am_run_succ_measure {st : AmState} (h : st.cur ≤ st.last) :
    (st.last + 1 - st.cur).toNat = (st.last - st.cur).toNat + 1 := by
  omega

/-- Claim C5: when the external applier exits nonzero for the current patch,
the run exits with code 128 and the session's persistent state is unchanged
for resumption — the directory state is untouched, `next` still contains the
current patch number, `last` is untouched, `author-script` and `final-commit`
still hold exactly what the per-patch pipeline wrote for this patch before
the apply attempt, no commit is written (the history is unchanged), and the
session still counts as in progress. -/
theorem claim_C5_apply_failure (st : AmState) (fs : FS) (env : Env) (mi : MailInfo)
    (h1 : st.author_name = none) (h2 : st.author_email = none)
    (h3 : st.author_date = none) (h4 : st.msg = none)
    (hcur : st.cur ≤ st.last)
    (hmail : fs.mails st.cur = some mi)
    (hskip : (infoAcc mi).author_name ≠ msid)
    (hpatch : is_empty_file mi.patchFile = false)
    (happly : env.applyOk st.cur = false)
    (hnext : fs.nextF = some (intChars st.cur)) :
    (am_run st fs env).1 = RunResult.exitApplyFail ∧
    exitCode (am_run st fs env).1 = 128 ∧
    (am_run st fs env).2.dirExists = fs.dirExists ∧
    (am_run st fs env).2.nextF = some (intChars st.cur) ∧
    (am_run st fs env).2.lastF = fs.lastF ∧
    (am_run st fs env).2.authorScript =
      some (write_author_script (infoAcc mi).author_name (infoAcc mi).author_email
        (infoAcc mi).author_date) ∧
    (am_run st fs env).2.finalCommit =
      some (write_commit_msg fs.finalCommit (composedMsg mi)) ∧
    (am_run st fs env).2.commits = fs.commits ∧
    am_in_progress (am_run st fs env).2 = am_in_progress fs := by
  have hrun : am_run st fs env = (RunResult.exitApplyFail,
      applyOp (applyOp fs (FsOp.writeOp FName.authorScript
          (write_author_script (infoAcc mi).author_name (infoAcc mi).author_email
            (infoAcc mi).author_date)))
        (FsOp.writeOp FName.finalCommit
          (write_commit_msg fs.finalCommit (composedMsg mi)))) := by
    rw [am_run, am_run_succ_measure hcur, am_run_go]
    rw [if_pos hcur]
    simp only [hmail, parse_mail_ok hskip hpatch h1 h2 h3 h4, run_apply, happly,
      Bool.false_eq_true, if_false, applyOp]
  rw [hrun]
  simp [applyOp, exitCode, am_in_progress, hnext]

/-- Claim C5 (witness): the apply-failure theorem at a concrete session whose
applier fails on patch 2. -/
theorem claim_C5_witness :
    (am_run stW fsW envFail).1 = RunResult.exitApplyFail :=
  (claim_C5_apply_failure stW fsW envFail miReal (by decide) (by decide) (by decide)
    (by decide) (by decide) (by decide) (by decide) (by decide) (by decide)
    (by decide)).1

/-- Claim C7: a patch whose parsed author name is exactly
`Mail System Internal Data` makes parse_mail return the Skip verdict, and the
run loop advances past it — the loop continues at `cur + 1` on a filesystem
whose commit history (HEAD) is unchanged, with no commit written. -/
theorem claim_C7_skip_silent (st : AmState) (fs : FS) (env : Env) (mi : MailInfo)
    (hcur : st.cur ≤ st.last)
    (hmail : fs.mails st.cur = some mi)
    (hskip : (infoAcc mi).author_name = msid) :
    parse_mail st mi = ParseResult.skip ∧
    am_run st fs env = am_run (am_next st fs).1 (am_next st fs).2.1 env ∧
    (am_next st fs).2.1.commits = fs.commits ∧
    (am_next st fs).1.cur = st.cur + 1 := by
  refine ⟨parse_mail_skip hskip, ?_, by rw [am_next_fs], by rw [am_next_state]⟩
  conv_lhs => rw [am_run, am_run_succ_measure hcur, am_run_go]
  rw [if_pos hcur]
  simp only [hmail, parse_mail_skip hskip]
  rw [am_run]
  have hc : (am_next st fs).1.cur = st.cur + 1 := by rw [am_next_state]
  have hl : (am_next st fs).1.last = st.last := by rw [am_next_state]
  rw [hc, hl]
  rw [show (st.last + 1 - (st.cur + 1)).toNat = (st.last - st.cur).toNat from by omega]

/-- Claim C7 (witness): the skip theorem at a concrete session whose patch 2
is pine housekeeping data; the loop step leaves the history unchanged. -/
theorem claim_C7_witness :
    parse_mail stW miSkipC = ParseResult.skip :=
  (claim_C7_skip_silent stW fsWskip envOK miSkipC (by decide) (by decide)
    (by decide)).1

/-- Claim C8: for a non-skipped patch whose `patch` file is empty or missing
after the parser runs, parse_mail aborts the run — exit code 128 — leaving
the filesystem untouched; and because the skip check precedes the
empty-patch check, a skipped message with an empty patch does not abort. -/
theorem claim_C8_empty_patch (st : AmState) (mi : MailInfo) :
    ((infoAcc mi).author_name = msid → parse_mail st mi = ParseResult.skip) ∧
    ((infoAcc mi).author_name ≠ msid → is_empty_file mi.patchFile = true →
      parse_mail st mi = ParseResult.exitEmpty ∧
      exitCode RunResult.exitEmptyPatch = 128 ∧
      ∀ (fs : FS) (env : Env), st.cur ≤ st.last → fs.mails st.cur = some mi →
        am_run st fs env = (RunResult.exitEmptyPatch, fs)) := by
  refine ⟨fun h => parse_mail_skip h, fun h he => ⟨parse_mail_empty h he, rfl, ?_⟩⟩
  intro fs env hcur hmail
  rw [am_run, am_run_succ_measure hcur, am_run_go]
  rw [if_pos hcur]
  simp only [hmail, parse_mail_empty h he]

/-- Claim C8 (witness): the empty-patch theorem at a concrete session whose
patch 2 has an ordinary author and an empty patch file. -/
theorem claim_C8_witness :
    am_run stW fsWempty envOK = (RunResult.exitEmptyPatch, fsWempty) :=
  ((claim_C8_empty_patch stW miEmptyC).2 (by decide) (by decide)).2.2 fsWempty envOK
    (by decide) (by decide)

/-! ## The scratch-file invariant (claim C6) -/

theorem parse_mail_cases (st : AmState) (mi : MailInfo) :
    parse_mail st mi = ParseResult.skip ∨
    parse_mail st mi = ParseResult.exitEmpty ∨
    parse_mail st mi = ParseResult.assertFail ∨
    ∃ nm em dt ms, parse_mail st mi = ParseResult.ok nm em dt ms := by
  cases parse_mail st mi with
  | skip => exact Or.inl rfl
  | exitEmpty => exact Or.inr (Or.inl rfl)
  | assertFail => exact Or.inr (Or.inr (Or.inl rfl))
  | ok a b c d => exact Or.inr (Or.inr (Or.inr ⟨a, b, c, d, rfl⟩))

theorem am_run_go_zero (st : AmState) (fs : FS) (env : Env) :
    am_run_go 0 st fs env = (RunResult.completed, am_destroy fs) := rfl

theorem am_run_go_done {st : AmState} (fs : FS) (env : Env) (k : Nat)
    (hcur : ¬st.cur ≤ st.last) :
    am_run_go (k + 1) st fs env = (RunResult.completed, am_destroy fs) := by
  rw [am_run_go, if_neg hcur]

theorem am_run_go_step_nomail {st : AmState} {fs : FS} (env : Env) (k : Nat)
    (hcur : st.cur ≤ st.last) (hm : fs.mails st.cur = none) :
    am_run_go (k + 1) st fs env =
      am_run_go k (am_next st fs).1 (am_next st fs).2.1 env := by
  rw [am_run_go, if_pos hcur]
  simp only [hm]

theorem am_run_go_step_skip {st : AmState} {fs : FS} {mi : MailInfo} (env : Env)
    (k : Nat) (hcur : st.cur ≤ st.last) (hm : fs.mails st.cur = some mi)
    (hp : parse_mail st mi = ParseResult.skip) :
    am_run_go (k + 1) st fs env =
      am_run_go k (am_next st fs).1 (am_next st fs).2.1 env := by
  rw [am_run_go, if_pos hcur]
  simp only [hm, hp]

theorem am_run_go_step_empty {st : AmState} {fs : FS} {mi : MailInfo} (env : Env)
    (k : Nat) (hcur : st.cur ≤ st.last) (hm : fs.mails st.cur = some mi)
    (hp : parse_mail st mi = ParseResult.exitEmpty) :
    am_run_go (k + 1) st fs env = (RunResult.exitEmptyPatch, fs) := by
  rw [am_run_go, if_pos hcur]
  simp only [hm, hp]

theorem am_run_go_step_assert {st : AmState} {fs : FS} {mi : MailInfo} (env : Env)
    (k : Nat) (hcur : st.cur ≤ st.last) (hm : fs.mails st.cur = some mi)
    (hp : parse_mail st mi = ParseResult.assertFail) :
    am_run_go (k + 1) st fs env = (RunResult.bugAssert, fs) := by
  rw [am_run_go, if_pos hcur]
  simp only [hm, hp]

theorem am_run_go_step_applyfail {st : AmState} {fs : FS} {mi : MailInfo}
    {env : Env} {nm em dt ms : List Char} (k : Nat)
    (hcur : st.cur ≤ st.last) (hm : fs.mails st.cur = some mi)
    (hp : parse_mail st mi = ParseResult.ok nm em dt ms)
    (ha : run_apply env
      { st with
        author_name := some nm, author_email := some em,
        author_date := some dt, msg := some ms } = false) :
    am_run_go (k + 1) st fs env = (RunResult.exitApplyFail,
      applyOp (applyOp fs (FsOp.writeOp FName.authorScript (write_author_script nm em dt)))
        (FsOp.writeOp FName.finalCommit (write_commit_msg fs.finalCommit ms))) := by
  rw [am_run_go, if_pos hcur]
  simp only [hm, hp, ha, Bool.false_eq_true, if_false, applyOp]

theorem am_run_go_step_applyok {st : AmState} {fs : FS} {mi : MailInfo}
    {env : Env} {nm em dt ms : List Char} (k : Nat)
    (hcur : st.cur ≤ st.last) (hm : fs.mails st.cur = some mi)
    (hp : parse_mail st mi = ParseResult.ok nm em dt ms)
    (ha : run_apply env
      { st with
        author_name := some nm, author_email := some em,
        author_date := some dt, msg := some ms } = true) :
    am_run_go (k + 1) st fs env =
      am_run_go k
        (am_next
          { st with
            author_name := some nm, author_email := some em,
            author_date := some dt, msg := some ms }
          (do_commit
            { st with
              author_name := some nm, author_email := some em,
              author_date := some dt, msg := some ms }
            (applyOp (applyOp fs (FsOp.writeOp FName.authorScript (write_author_script nm em dt)))
              (FsOp.writeOp FName.finalCommit (write_commit_msg fs.finalCommit ms))))).1
        (am_next
          { st with
            author_name := some nm, author_email := some em,
            author_date := some dt, msg := some ms }
          (do_commit
            { st with
              author_name := some nm, author_email := some em,
              author_date := some dt, msg := some ms }
            (applyOp (applyOp fs (FsOp.writeOp FName.authorScript (write_author_script nm em dt)))
              (FsOp.writeOp FName.finalCommit (write_commit_msg fs.finalCommit ms))))).2.1
        env := by
  rw [am_run_go, if_pos hcur]
  simp only [hm, hp, ha, if_true, applyOp]

theorem am_run_go_scratch (fuel : Nat) :
    ∀ (st : AmState) (fs : FS) (env : Env),
      st.author_name = none → st.author_email = none → st.author_date = none →
      st.msg = none → fs.authorScript = none → fs.finalCommit = none →
      ((am_run_go fuel st fs env).1 = RunResult.completed →
        (am_run_go fuel st fs env).2.authorScript = none ∧
        (am_run_go fuel st fs env).2.finalCommit = none) ∧
      ((am_run_go fuel st fs env).1 = RunResult.exitEmptyPatch →
        (am_run_go fuel st fs env).2.authorScript = none ∧
        (am_run_go fuel st fs env).2.finalCommit = none) ∧
      ((am_run_go fuel st fs env).1 = RunResult.exitApplyFail →
        (am_run_go fuel st fs env).2.authorScript ≠ none ∧
        (am_run_go fuel st fs env).2.finalCommit ≠ none) := by
  induction fuel with
  | zero =>
    intro st fs env _ _ _ _ _ _
    rw [am_run_go_zero]
    refine ⟨fun _ => ?_, fun hc => ?_, fun hc => ?_⟩
    · simp [am_destroy, applyOp]
    · simp at hc
    · simp at hc
  | succ k ih =>
    intro st fs env h1 h2 h3 h4 h5 h6
    by_cases hcur : st.cur ≤ st.last
    case neg =>
      rw [am_run_go_done fs env k hcur]
      refine ⟨fun _ => ?_, fun hc => ?_, fun hc => ?_⟩
      · simp [am_destroy, applyOp]
      · simp at hc
      · simp at hc
    rcases hm : fs.mails st.cur with _ | mi
    · rw [am_run_go_step_nomail env k hcur hm]
      exact ih (am_next st fs).1 (am_next st fs).2.1 env rfl rfl rfl rfl rfl rfl
    rcases parse_mail_cases st mi with hp | hp | hp | ⟨nm, em, dt, ms, hp⟩
    · rw [am_run_go_step_skip env k hcur hm hp]
      exact ih (am_next st fs).1 (am_next st fs).2.1 env rfl rfl rfl rfl rfl rfl
    · rw [am_run_go_step_empty env k hcur hm hp]
      refine ⟨fun hc => ?_, fun _ => ⟨h5, h6⟩, fun hc => ?_⟩
      · simp at hc
      · simp at hc
    · exact absurd hp (parse_mail_not_assert h1 h2 h3 h4)
    · cases ha : run_apply env
        { st with
          author_name := some nm, author_email := some em,
          author_date := some dt, msg := some ms } with
      | false =>
        rw [am_run_go_step_applyfail k hcur hm hp ha]
        refine ⟨fun hc => ?_, fun hc => ?_, fun _ => ?_⟩
        · simp at hc
        · simp at hc
        · constructor <;> simp [applyOp]
      | true =>
        rw [am_run_go_step_applyok k hcur hm hp ha]
        exact ih _ _ env rfl rfl rfl rfl rfl rfl

/-- Claim C6: the scratch files and in-memory per-patch data obey the
advance discipline.  am_next clears the four in-memory fields, deletes both
`author-script` and `final-commit`, and only then (strictly later in its
operation trace) writes the incremented counter to `next`.  Consequently,
for a run entered at a quiescent point (clean state, no scratch files),
`author-script` and `final-commit` exist on exit iff the current patch was
parsed but not successfully committed-and-advanced: they are absent when the
run completes or aborts before writing them (empty patch), and present
exactly when an apply failure leaves the parsed-but-uncommitted patch
behind. -/
theorem claim_C6_scratch_invariant (st : AmState) (fs : FS) (env : Env)
    (h1 : st.author_name = none) (h2 : st.author_email = none)
    (h3 : st.author_date = none) (h4 : st.msg = none)
    (h5 : fs.authorScript = none) (h6 : fs.finalCommit = none) :
    ((am_next st fs).1.author_name = none ∧ (am_next st fs).1.author_email = none ∧
     (am_next st fs).1.author_date = none ∧ (am_next st fs).1.msg = none ∧
     (am_next st fs).1.cur = st.cur + 1 ∧
     (am_next st fs).2.1.authorScript = none ∧
     (am_next st fs).2.1.finalCommit = none ∧
     (am_next st fs).2.1.nextF = some (intChars (st.cur + 1))) ∧
    (∀ (i j : Nat) (c : List Char) (m : FName),
      (am_next st fs).2.2[i]? = some (FsOp.unlinkOp m) →
      (am_next st fs).2.2[j]? = some (FsOp.writeOp FName.next c) → i < j) ∧
    ((am_run st fs env).1 = RunResult.completed →
      (am_run st fs env).2.authorScript = none ∧
      (am_run st fs env).2.finalCommit = none) ∧
    ((am_run st fs env).1 = RunResult.exitEmptyPatch →
      (am_run st fs env).2.authorScript = none ∧
      (am_run st fs env).2.finalCommit = none) ∧
    ((am_run st fs env).1 = RunResult.exitApplyFail →
      (am_run st fs env).2.authorScript ≠ none ∧
      (am_run st fs env).2.finalCommit ≠ none) := by
  have hrun := am_run_go_scratch (st.last + 1 - st.cur).toNat st fs env
    h1 h2 h3 h4 h5 h6
  rw [← am_run] at hrun
  refine ⟨⟨by rw [am_next_state], by rw [am_next_state], by rw [am_next_state],
    by rw [am_next_state], by rw [am_next_state], by rw [am_next_fs],
    by rw [am_next_fs], by rw [am_next_fs]⟩, ?_, hrun.1, hrun.2.1, hrun.2.2⟩
  intro i j c m hi hj
  rw [am_next_trace] at hi hj
  have hj2 : j = 2 := by
    rcases j with _ | _ | _ | j
    · simp at hj
    · simp at hj
    · rfl
    · simp at hj
  have hi2 : i < 2 := by
    rcases i with _ | _ | _ | i
    · omega
    · omega
    · simp at hi
    · simp at hi
  omega

/-- Claim C6 (witness): the invariant theorem at a concrete session whose
patch 2 parses but fails to apply: the scratch files are present
afterwards. -/
theorem claim_C6_witness :
    (am_run stW fsW envFail).2.authorScript ≠ none :=
  ((claim_C6_scratch_invariant stW fsW envFail (by decide) (by decide) (by decide)
    (by decide) (by decide) (by decide)).2.2.2.2 (by decide)).1

/-! ## Loading the session state (claim C9) -/

theorem mem_gitTrim {s : List Char} {c : Char} (h : c ∈ gitTrim s) : c ∈ s := by
  rw [gitTrim, List.mem_reverse] at h
  have h2 := (List.dropWhile_sublist isGitSpace).subset h
  rw [List.mem_reverse] at h2
  exact (List.dropWhile_sublist isGitSpace).subset h2

theorem takeWhile_digit_nil {l : List Char} (h : ∀ ch ∈ l, ch.isDigit = false) :
    l.takeWhile Char.isDigit = [] := by
  cases l with
  | nil => rfl
  | cons a t =>
    rw [List.takeWhile_cons, if_neg]
    rw [h a (List.mem_cons_self a t)]
    simp

theorem strtol10_no_digit {s : List Char} (h : ∀ ch ∈ s, ch.isDigit = false) :
    strtol10 s = 0 := by
  have hsub : ∀ ch ∈ s.dropWhile isLibcSpace, ch.isDigit = false := fun ch hch =>
    h ch ((List.dropWhile_sublist isLibcSpace).subset hch)
  rcases hd : s.dropWhile isLibcSpace with _ | ⟨c, rest⟩
  · rw [strtol10]
    simp only [hd]
  · have hrest : ∀ ch ∈ rest, ch.isDigit = false := fun ch hch =>
      hsub ch (by rw [hd]; exact List.mem_cons_of_mem c hch)
    have hall : ∀ ch ∈ c :: rest, ch.isDigit = false := by
      rw [← hd]
      exact hsub
    rw [strtol10]
    simp only [hd]
    by_cases hc1 : c = '-'
    · rw [if_pos hc1, takeWhile_digit_nil hrest]
      rfl
    rw [if_neg hc1]
    by_cases hc2 : c = '+'
    · rw [if_pos hc2, takeWhile_digit_nil hrest]
      rfl
    rw [if_neg hc2, takeWhile_digit_nil hall]
    rfl

/-- Claim C9: am_load dies only when `next` or `last` is missing or the
author-script is present but malformed; whenever `next` and `last` exist and
hold non-numeric text, am_load succeeds, strtol yields 0 for both counters,
and the loaded state violates `1 ≤ cur` — the invariant `1 ≤ cur ≤ last + 1`
is neither checked nor enforced at load time. -/
theorem claim_C9_load_lenient :
    (∀ fs : FS, (∃ st, am_load fs = LoadResult.ok st) ↔
      (fs.nextF ≠ none ∧ fs.lastF ≠ none ∧
        (fs.authorScript = none ∨
          ∃ asf v, fs.authorScript = some asf ∧ read_author_script asf = some v))) ∧
    (∀ (fs : FS) (c1 c2 : List Char),
      fs.nextF = some c1 → fs.lastF = some c2 →
      (∀ ch ∈ c1, ch.isDigit = false) → (∀ ch ∈ c2, ch.isDigit = false) →
      fs.authorScript = none →
      ∃ st, am_load fs = LoadResult.ok st ∧ st.cur = 0 ∧ st.last = 0 ∧
        ¬(1 ≤ st.cur ∧ st.cur ≤ st.last + 1)) := by
  constructor
  · intro fs
    constructor
    · rintro ⟨st, hst⟩
      rw [am_load] at hst
      rcases hn : fs.nextF with _ | c1
      · simp only [hn] at hst
        exact LoadResult.noConfusion hst
      simp only [hn] at hst
      rcases hl : fs.lastF with _ | c2
      · simp only [hl] at hst
        exact LoadResult.noConfusion hst
      simp only [hl] at hst
      refine ⟨by simp, by simp, ?_⟩
      rcases has : fs.authorScript with _ | asf
      · exact Or.inl rfl
      simp only [has] at hst
      rcases hra : read_author_script asf with _ | v
      · simp only [hra] at hst
        exact LoadResult.noConfusion hst
      · exact Or.inr ⟨asf, v, rfl, hra⟩
    · rintro ⟨hn, hl, has⟩
      rcases hn2 : fs.nextF with _ | c1
      · exact absurd hn2 hn
      rcases hl2 : fs.lastF with _ | c2
      · exact absurd hl2 hl
      rcases has with has | ⟨asf, ⟨vn, ve, vd⟩, has, hra⟩
      · refine ⟨⟨strtol10 (gitTrim c1), strtol10 (gitTrim c2), none, none, none,
          fs.finalCommit⟩, ?_⟩
        rw [am_load]
        simp only [hn2, hl2, has]
      · refine ⟨⟨strtol10 (gitTrim c1), strtol10 (gitTrim c2), some vn, some ve,
          some vd, fs.finalCommit⟩, ?_⟩
        rw [am_load]
        simp only [hn2, hl2, has, hra]
  · intro fs c1 c2 hn hl hd1 hd2 has
    have hz1 : strtol10 (gitTrim c1) = 0 :=
      strtol10_no_digit fun ch hch => hd1 ch (mem_gitTrim hch)
    have hz2 : strtol10 (gitTrim c2) = 0 :=
      strtol10_no_digit fun ch hch => hd2 ch (mem_gitTrim hch)
    refine ⟨⟨strtol10 (gitTrim c1), strtol10 (gitTrim c2), none, none, none,
      fs.finalCommit⟩, ?_, hz1, hz2, ?_⟩
    · rw [am_load]
      simp only [hn, hl, has]
    · simp only [hz1]
      omega

/-- Claim C9 (witness): the load-leniency theorem at a concrete session whose
`next` file holds `abc` and whose `last` file holds `xy`. -/
theorem claim_C9_witness :
    ∃ st, am_load fsNonNum = LoadResult.ok st ∧ st.cur = 0 ∧ st.last = 0 ∧
      ¬(1 ≤ st.cur ∧ st.cur ≤ st.last + 1) :=
  claim_C9_load_lenient.2 fsNonNum ("abc".toList) ("xy".toList) (by decide)
    (by decide) (by decide) (by decide) (by decide)

/-! ## The final-commit write (claim C10) -/

/-- Claim C10: write_commit_msg opens `final-commit` with O_WRONLY|O_CREAT
but without O_TRUNC.  With no pre-existing file the result is exactly the
msg_len bytes of the message; with a longer pre-existing file the result is
the new message followed by the surviving trailing bytes of the old
contents — in particular it differs from the message and keeps the old
length. -/
theorem claim_C10_no_trunc (m old : List Char) :
    (write_commit_msg none m = m) ∧
    (old.length > m.length →
      write_commit_msg (some old) m = m ++ old.drop m.length ∧
      write_commit_msg (some old) m ≠ m ∧
      (write_commit_msg (some old) m).length = old.length) := by
  constructor
  · simp [write_commit_msg]
  · intro h
    refine ⟨rfl, ?_, ?_⟩
    · intro hc
      have hlen := congrArg List.length hc
      simp only [write_commit_msg, Option.getD_some, List.length_append,
        List.length_drop] at hlen
      omega
    · simp only [write_commit_msg, Option.getD_some, List.length_append,
        List.length_drop]
      omega

/-- Claim C10 (witness): the surviving-tail behavior on concrete contents —
writing `ab` over `wxyz` leaves `abyz`. -/
theorem claim_C10_witness :
    write_commit_msg (some ['w', 'x', 'y', 'z']) ['a', 'b'] =
      ['a', 'b'] ++ (['w', 'x', 'y', 'z'].drop 2) :=
  ((claim_C10_no_trunc ['a', 'b'] ['w', 'x', 'y', 'z']).2 (by decide)).1

/-! ## Setup write ordering (claim C2) -/

theorem applyOps_lastF_none (ops : List FsOp) :
    ∀ fs : FS, fs.lastF = none →
    (∀ c, FsOp.writeOp FName.last c ∉ ops) →
    (applyOps fs ops).lastF = none := by
  induction ops with
  | nil =>
    intro fs h _
    exact h
  | cons op rest ih =>
    intro fs h hmem
    rw [applyOps, List.foldl_cons]
    have hstep : (applyOp fs op).lastF = none := by
      rcases op with _ | ⟨n, c⟩ | ⟨i, m⟩ | n | _
      · simpa [applyOp] using h
      · rcases n with _ | _ | _ | _ | _ | _ | _
        case writeOp.last => exact absurd (List.mem_cons_self _ _) (hmem c)
        all_goals simpa [applyOp] using h
      · simpa [applyOp] using h
      · rcases n with _ | _ | _ | _ | _ | _ | _
        all_goals simp [applyOp, h]
      · simp [applyOp]
    exact ih (applyOp fs op) hstep
      (fun c hc => hmem c (List.mem_cons_of_mem op hc))

theorem am_setup_ops_split (sp : Split) :
    am_setup_ops sp =
      (FsOp.mkdirOp :: splitWriteOps sp ++ [FsOp.writeOp FName.next (intChars 1)]) ++
        [FsOp.writeOp FName.last (intChars sp.n)] := by
  simp [am_setup_ops]

theorem no_write_last_in_prefix (sp : Split) (k : Nat)
    (hk : k < (am_setup_ops sp).length) (c : List Char) :
    FsOp.writeOp FName.last c ∉ (am_setup_ops sp).take k := by
  intro hmem
  rw [am_setup_ops_split] at hmem hk
  have hlen : k ≤ (FsOp.mkdirOp :: splitWriteOps sp ++
      [FsOp.writeOp FName.next (intChars 1)]).length := by
    rw [List.length_append] at hk
    simp at hk ⊢
    omega
  rw [List.take_append_of_le_length hlen] at hmem
  have hmem2 := List.take_subset k _ hmem
  rcases List.mem_cons.mp hmem2 with h | h
  · exact FsOp.noConfusion h
  rcases List.mem_append.mp h with h | h
  · rw [splitWriteOps, List.mem_filterMap] at h
    obtain ⟨a, _, ha⟩ := h
    rcases Option.map_eq_some'.mp ha with ⟨m, _, hm⟩
    exact FsOp.noConfusion hm
  · rw [List.mem_singleton] at h
    have := (FsOp.writeOp.injEq _ _ _ _).mp h
    exact FName.noConfusion this.1

/-- Claim C2 (counterexample): on a concrete one-message setup, the final
filesystem operation of am_setup is the write of `last`, not of `next` —
am_setup writes `next` first and `last` after it (builtin/am.c lines
527-529), so `next` is not the last file written during setup. -/
theorem claim_C2_counterexample :
    lastOpWritesNext (am_setup_ops sp0) = false ∧
    (am_setup_ops sp0).getLast? =
      some (FsOp.writeOp FName.last (intChars 1)) := by decide

/-- Claim C2 (amended): during am_setup every other session file is written
before `next` and `last`, which are the final two writes, in that order —
`next` second to last and `last` last.  Because am_in_progress requires both
the `last` and the `next` file, a crash at any strict prefix of the setup
operation sequence still leaves a directory that am_in_progress does not
recognize as a live session. -/
theorem claim_C2_setup_write_order (sp : Split) (fs : FS) (env : Env)
    (hsp : env.split = some sp) (hlast : fs.lastF = none) :
    (∃ st, am_setup PatchFormat.mbox env fs =
      SetupResult.ok st (applyOps fs (am_setup_ops sp)) (am_setup_ops sp)) ∧
    (am_setup_ops sp).getLast? = some (FsOp.writeOp FName.last (intChars sp.n)) ∧
    ((am_setup_ops sp).dropLast).getLast? =
      some (FsOp.writeOp FName.next (intChars 1)) ∧
    (∀ k, k < (am_setup_ops sp).length →
      am_in_progress (applyOps fs ((am_setup_ops sp).take k)) = false) := by
  refine ⟨?_, ?_, ?_, ?_⟩
  · refine ⟨⟨1, sp.n, none, none, none, none⟩, ?_⟩
    rw [am_setup]
    simp only [hsp]
  · rw [am_setup_ops_split, List.getLast?_concat]
  · rw [am_setup_ops_split, List.dropLast_concat]
    rw [show FsOp.mkdirOp :: splitWriteOps sp ++ [FsOp.writeOp FName.next (intChars 1)] =
      (FsOp.mkdirOp :: splitWriteOps sp) ++ [FsOp.writeOp FName.next (intChars 1)] from by simp]
    rw [List.getLast?_concat]
  · intro k hk
    have hnone := applyOps_lastF_none ((am_setup_ops sp).take k) fs hlast
      (fun c hc => no_write_last_in_prefix sp k hk c hc)
    rw [am_in_progress, hnone]
    simp

/-- Claim C2 (witness): the amended ordering theorem at the concrete
one-message environment: a crash after only the mkdir (prefix of length 1)
leaves no recognizable session. -/
theorem claim_C2_witness :
    am_in_progress (applyOps fsEmpty ((am_setup_ops sp0).take 1)) = false :=
  (claim_C2_setup_write_order sp0 fsEmpty envSplit rfl rfl).2.2.2 1 (by decide)

/-! ## Resume after an apply failure (claim C1) -/

/-- Claim C1 (code bug): on the session an apply failure leaves behind —
`next` = 2, `last` = 2, `author-script` and `final-commit` present — cmd_am
does load the persisted state (am_in_progress answers 1, am_load fills the
three authorship fields and the message), but re-attempting patch 2 through
the per-patch pipeline then aborts in parse_mail: the fresh parse asserts its
four outputs are uninitialized at entry, and am_load has just initialized
them.  The run dies on the assert instead of committing, even though the
patch would now apply (the applier succeeds everywhere in this environment);
no commit is written.  Dropping the two scratch files — so that am_load
leaves the fields unset — makes the very same session resume and complete
with one commit, isolating the assert as the failure. -/
theorem claim_C1_resume_hits_assert :
    am_in_progress fsResume = true ∧
    am_load fsResume = LoadResult.ok stResume ∧
    stResume.author_name ≠ none ∧
    parse_mail stResume miReal = ParseResult.assertFail ∧
    (cmd_am PatchFormat.mbox envOK fsResume).1 = RunResult.bugAssert ∧
    (cmd_am PatchFormat.mbox envOK fsResume).2.commits = [] ∧
    (cmd_am PatchFormat.mbox envOK fsW).1 = RunResult.completed ∧
    (cmd_am PatchFormat.mbox envOK fsW).2.commits.length = 1 := by
  refine ⟨by decide, by decide, by decide, by decide, by decide, by decide,
    by decide, by decide⟩

end GitAm
